import Mathlib

/-
Verification development for the "AI-Powered Task Management" application
(`combined_app.py`).  The application state and its operations are shallowly
embedded: Python floats are modelled as exact rationals, Python lists as
`List`, pandas/sklearn/nltk library calls by their documented semantics.
-/

set_option maxRecDepth 10000

namespace TaskApp

/-- Task record created by the Add Task form (`combined_app.py`, lines
117-126).  `estimated_hours` (a Python float) is modelled as a rational;
`due_date` is stored as a string (the source stores `str(due_date)`). -/
structure Task where
  description : String
  estimated_hours : ℚ
  due_date : String
  category : String
  priority : String
  status : String
deriving DecidableEq

/-- Count of tasks whose `status` equals `"Completed"`; embeds
`sum(1 for task in tasks if task["status"] == "Completed")` (line 58). -/
def completedCount (tasks : List Task) : ℕ :=
  tasks.countP (fun t => t.status == "Completed")

/-- Round a rational to the nearest integer, ties to the nearest even
integer.  This is the rounding mode of Python's built-in `round`
(the binary floating-point value is modelled as an exact rational). -/
def roundHalfEven (q : ℚ) : ℤ :=
  if q - ⌊q⌋ < 1/2 then ⌊q⌋
  else if 1/2 < q - ⌊q⌋ then ⌊q⌋ + 1
  else if 2 ∣ ⌊q⌋ then ⌊q⌋ else ⌊q⌋ + 1

/-- Python's `round(x, 2)`: scale by 100, round half-to-even, unscale. -/
def pyRound2 (q : ℚ) : ℚ :=
  (roundHalfEven (q * 100) : ℚ) / 100

/-- Embeds `calculate_completion_rate` (lines 55-59):
`if not tasks: return 0` and otherwise
`round((completed / len(tasks)) * 100, 2)`. -/
def calculate_completion_rate (tasks : List Task) : ℚ :=
  if tasks.isEmpty then 0
  else pyRound2 (((completedCount tasks : ℚ) / (tasks.length : ℚ)) * 100)

/-- Modelled from the spec's wording for claim C1: the completion rate as
`round(100 * completed_count / total_count, 2)` with 0 for the empty
sequence.  Compared against `calculate_completion_rate` below. -/
def completionRateSpec (tasks : List Task) : ℚ :=
  if tasks.length = 0 then 0
  else pyRound2 (100 * (completedCount tasks : ℚ) / (tasks.length : ℚ))

/-- Example task with status `"Pending"`, as produced by the Add Task form. -/
def pendingTask : Task :=
  ⟨"write report", 1, "2026-01-01", "general", "Low", "Pending"⟩

/-- Example task with status `"Completed"`, as produced by the Add Task form. -/
def completedTaskEx : Task :=
  ⟨"ship release", 1, "2026-01-01", "general", "Low", "Completed"⟩

/-- A session with 20000 pending tasks and one completed task: the exact
completion percentage is 100/20001 which is below 0.005. -/
def manyTasks : List Task := List.replicate 20000 pendingTask ++ [completedTaskEx]

/-- Embeds the Add Task form handler (lines 117-127):
`if submitted and description:` append the new record and show the success
message, otherwise do nothing (Python string truthiness: non-empty).
The returned `Option String` is the message surfaced to the user
(`st.success`); no error branch exists in the source. -/
def addTaskHandler (tasks : List Task) (submitted : Bool) (description : String)
    (hours : ℚ) (due : String) (category : String) (priority : String)
    (status : String) : List Task × Option String :=
  if submitted && !(description == "") then
    (tasks ++ [⟨description, hours, due, category, priority, status⟩],
     some "Task added successfully!")
  else (tasks, none)

/-- One user interaction with the app, as dispatched by the sidebar radio
(lines 74-179).  Payloads carry the widget inputs each page reads. -/
inductive PageAction where
  | dashboard : PageAction
  | addTask (submitted : Bool) (description : String) (hours : ℚ)
      (due : String) (category : String) (priority : String)
      (status : String) : PageAction
  | taskList (statusFilter priorityFilter : String) : PageAction
  | aiInsights (uploadedDescriptions : List String) : PageAction
deriving DecidableEq

/-- Effect of one page execution on the session task store
(`st.session_state.tasks`).  Dashboard (lines 77-103), the Task list
(lines 130-144) and AI Insights (lines 147-179) only read the store;
only the Add Task handler writes it (line 126). -/
def appStep (tasks : List Task) : PageAction → List Task
  | PageAction.dashboard => tasks
  | PageAction.addTask sub d h du c p s => (addTaskHandler tasks sub d h du c p s).1
  | PageAction.taskList _ _ => tasks
  | PageAction.aiInsights _ => tasks

/-- Embeds the Task List filter (lines 133-142): apply the status filter
unless it is `"All"`, then the priority filter unless it is `"All"`. -/
def taskListFilter (tasks : List Task) (statusFilter priorityFilter : String) :
    List Task :=
  let f1 := if statusFilter == "All" then tasks
            else tasks.filter (fun t => t.status == statusFilter)
  if priorityFilter == "All" then f1
  else f1.filter (fun t => t.priority == priorityFilter)

/-- Hyperparameters drawn by one optuna trial in `optimize_xgb`
(lines 40-44): `n_estimators`, `max_depth` (Python ints) and
`learning_rate` (Python float, modelled as a rational). -/
structure XGBParams where
  n_estimators : ℤ
  max_depth : ℤ
  learning_rate : ℚ
deriving DecidableEq

/-- Ranges passed to `trial.suggest_int`/`trial.suggest_float` (lines 41-43);
optuna guarantees suggested values fall inside these closed intervals. -/
def xgbRange (p : XGBParams) : Prop :=
  50 ≤ p.n_estimators ∧ p.n_estimators ≤ 200 ∧
  2 ≤ p.max_depth ∧ p.max_depth ≤ 10 ∧
  (1/100 : ℚ) ≤ p.learning_rate ∧ p.learning_rate ≤ 3/10

/-- Best trial of an optuna study with `direction="maximize"`: the maximum
objective value, the earliest trial winning ties (optuna's `best_trial`). -/
def bestTrial (t : XGBParams × ℚ) (ts : List (XGBParams × ℚ)) : XGBParams × ℚ :=
  ts.foldl (fun acc t2 => if acc.2 < t2.2 then t2 else acc) t

/-- Embeds `optimize_xgb` (lines 38-50).  The external `XGBClassifier.fit`
and `.score` are abstracted as `fitXGB`/`scoreXGB` over an abstract training
set `data`; the optuna sampler is abstracted as `sampler`.  The objective of
trial `i` fits on `data` and scores on the same `data` (lines 46-47); the
study runs `n_trials=10` (line 49) and the final model is refitted with the
best parameters on `data` (line 50).  Returns the final model and the trial
trace (parameters and objective value of each trial). -/
def optimize_xgb {D M : Type} (fitXGB : XGBParams → D → M)
    (scoreXGB : M → D → ℚ) (sampler : ℕ → XGBParams) (data : D) :
    M × List (XGBParams × ℚ) :=
  let objective : XGBParams → ℚ := fun p => scoreXGB (fitXGB p data) data
  let trials := (List.range 10).map (fun i => (sampler i, objective (sampler i)))
  let best := bestTrial (sampler 0, objective (sampler 0)) trials
  (fitXGB best.1 data, trials)

/-- Distinct values of a column in first-encounter order: the key order of
the pandas hash-table aggregation underlying `value_counts`. -/
def uniqueKeys : List String → List String
  | [] => []
  | x :: xs => x :: (uniqueKeys xs).filter (fun y => !(y == x))

/-- The `value_counts` series before sorting: each distinct value of the
column, in first-encounter order, with its number of occurrences. -/
def valueCountsRaw (l : List String) : List (String × ℕ) :=
  (uniqueKeys l).map (fun k => (k, l.count k))

/-- Stable insertion into a count-descending list: the new pair passes
entries with strictly greater counts and stops before equal ones, which it
preceded in encounter order. -/
def insertDesc (p : String × ℕ) : List (String × ℕ) → List (String × ℕ)
  | [] => [p]
  | q :: qs => if p.2 < q.2 then q :: insertDesc p qs else p :: q :: qs

/-- Stable descending sort by count: pandas sorts the `value_counts` series
by count descending, ties keeping first-encounter order. -/
def sortCountDesc : List (String × ℕ) → List (String × ℕ)
  | [] => []
  | p :: ps => insertDesc p (sortCountDesc ps)

/-- Running minimum over a series, keeping the earliest entry among ties. -/
def foldMinPair (p : String × ℕ) (ps : List (String × ℕ)) : String × ℕ :=
  ps.foldl (fun acc q => if q.2 < acc.2 then q else acc) p

/-- pandas `Series.idxmin`: the index label of the first entry attaining the
minimum value; `none` on an empty series (pandas raises there). -/
def idxmin : List (String × ℕ) → Option String
  | [] => none
  | p :: ps => some (foldMinPair p ps).1

/-- Embeds `recommend_user` (lines 52-53):
`df['assigned_to'].value_counts().idxmin()` on the assigned-to column. -/
def recommend_user (assigned : List String) : Option String :=
  idxmin (sortCountDesc (valueCountsRaw assigned))

/-- Modelled from the spec's wording for claim C6: the first-encountered
user among those whose assigned count is minimal. -/
def recommendSpec (assigned : List String) : Option String :=
  (uniqueKeys assigned).find? (fun k =>
    decide (∀ v ∈ assigned, assigned.count k ≤ assigned.count v))

/-- One cell of sklearn's `confusion_matrix(y_true, y_pred, labels=labels)`:
row `i`, column `j` counts samples with true label `labels[i]` predicted as
`labels[j]`. -/
def confusion_matrix (labels : List ℕ) (yTrue yPred : List ℕ) : List (List ℕ) :=
  labels.map (fun i => labels.map (fun j =>
    ((yTrue.zip yPred).filter (fun pr => pr.1 == i && pr.2 == j)).length))

/-- True positives of class `c`. -/
def tpCount (yTrue yPred : List ℕ) (c : ℕ) : ℕ :=
  ((yTrue.zip yPred).filter (fun pr => pr.1 == c && pr.2 == c)).length

/-- Per-class precision as sklearn's `classification_report` computes it
with `zero_division=0` (line 164): 0 when the class is never predicted. -/
def precisionFor (yTrue yPred : List ℕ) (c : ℕ) : ℚ :=
  if yPred.count c = 0 then 0
  else (tpCount yTrue yPred c : ℚ) / (yPred.count c : ℚ)

/-- Per-class recall as sklearn's `classification_report` computes it with
`zero_division=0` (line 164): 0 when the class has no true members. -/
def recallFor (yTrue yPred : List ℕ) (c : ℕ) : ℚ :=
  if yTrue.count c = 0 then 0
  else (tpCount yTrue yPred c : ℚ) / (yTrue.count c : ℚ)

/-- The AI Insights confusion matrix call (lines 163-168):
`labels = list(range(len(label_encoder.classes_)))`, so the axes always
enumerate every known class of the label encoder. -/
def insightsConfusion (numClasses : ℕ) (yTrue yPred : List ℕ) : List (List ℕ) :=
  confusion_matrix (List.range numClasses) yTrue yPred

/-- Shorthand turning a string literal into the character list the stemmer
works on. -/
def cl (s : String) : List Char := s.toList

namespace Porter

/-
Embedding of nltk.stem.PorterStemmer in its default NLTK_EXTENSIONS mode,
the stemmer `preprocess_text` instantiates (line 25).  Words are lists of
characters; all call sites pass lowercase tokens, so the `word.lower()`
at the entry of `stem` is omitted (it is the identity there).
-/

/-- Vowel characters of the Porter algorithm. -/
def vowels : List Char := ['a', 'e', 'i', 'o', 'u']

/-- Consonant/vowel classification of each position, carrying the previous
classification so that `y` is a consonant at position 0 and after a vowel
(`_is_consonant`); `true` means consonant. -/
def cvAux : Option Bool → List Char → List Bool
  | _, [] => []
  | prev, c :: cs =>
    let isC : Bool :=
      if vowels.contains c then false
      else if c == 'y' then
        (match prev with
         | none => true
         | some pc => !pc)
      else true
    isC :: cvAux (some isC) cs

/-- Per-position consonant flags of a word. -/
def cvSeq (w : List Char) : List Bool := cvAux none w

/-- Count of vowel-consonant adjacencies (`cv_sequence.count("vc")`). -/
def countVC : List Bool → ℕ
  | a :: b :: rest => (if !a && b then 1 else 0) + countVC (b :: rest)
  | _ => 0

/-- The measure m of a stem (`_measure`). -/
def porterMeasure (w : List Char) : ℕ := countVC (cvSeq w)

/-- Does the stem contain a vowel (`_contains_vowel`). -/
def containsVowel (w : List Char) : Bool := (cvSeq w).any (fun b => !b)

/-- Is the final position a consonant. -/
def lastIsCons (w : List Char) : Bool := (cvSeq w).getLastD false

/-- Does the word end in a double consonant (`_ends_double_consonant`). -/
def endsDoubleCons (w : List Char) : Bool :=
  match w.reverse with
  | a :: b :: _ => a == b && lastIsCons w
  | _ => false

/-- Does the word end consonant-vowel-consonant with the final consonant
not w/x/y, or — the NLTK extension — is it a two-letter vowel-consonant
word (`_ends_cvc`). -/
def endsCVC (w : List Char) : Bool :=
  (match (cvSeq w).reverse, w.reverse with
   | lc :: sv :: tc :: _, lch :: _ =>
     tc && !sv && lc && !((cl "wxy").contains lch)
   | _, _ => false)
  ||
  (match cvSeq w with
   | [fv, sc] => !fv && sc
   | _ => false)

/-- Does the word end with the given suffix. -/
def endsWith (w suf : List Char) : Bool := suf.isSuffixOf w

/-- Drop a suffix of the given length from the end (`_replace_suffix` with
empty replacement; only called when the suffix matches). -/
def dropSuf (w suf : List Char) : List Char := w.take (w.length - suf.length)

/-- Positive measure condition (`_has_positive_measure`). -/
def hasPosMeasure (st : List Char) : Bool := decide (0 < porterMeasure st)

/-- Measure-greater-than-one condition of step 4. -/
def measureGT1 (st : List Char) : Bool := decide (1 < porterMeasure st)

/-- The rule-list interpreter `_apply_rule_list`: the first rule whose
suffix matches decides the outcome — replace when its condition holds,
otherwise return the word unchanged. -/
def applyRuleList (w : List Char) :
    List (List Char × List Char × Option (List Char → Bool)) → List Char
  | [] => w
  | (suf, repl, cond) :: rs =>
    if endsWith w suf then
      (let st := dropSuf w suf
       match cond with
       | none => st ++ repl
       | some c => if c st then st ++ repl else w)
    else applyRuleList w rs

/-- Step 1a with the NLTK extension sending 4-letter `ies` words to `ie`. -/
def step1a (w : List Char) : List Char :=
  if endsWith w (cl "ies") && w.length == 4 then dropSuf w (cl "ies") ++ cl "ie"
  else applyRuleList w
    [(cl "sses", cl "ss", none), (cl "ies", cl "i", none),
     (cl "ss", cl "ss", none), (cl "s", [], none)]

/-- Tail of step 1b after `ed`/`ing` removal succeeded: the `at`/`bl`/`iz`
rules, the double-consonant rule (`*d` with replacement the single letter,
blocked for l/s/z), and the `(m=1 and *o) -> E` rule, first match deciding
as in `_apply_rule_list`. -/
def step1bPost (inter : List Char) : List Char :=
  if endsWith inter (cl "at") then dropSuf inter (cl "at") ++ cl "ate"
  else if endsWith inter (cl "bl") then dropSuf inter (cl "bl") ++ cl "ble"
  else if endsWith inter (cl "iz") then dropSuf inter (cl "iz") ++ cl "ize"
  else if endsDoubleCons inter then
    (if (cl "lsz").contains (inter.getLastD 'a') then inter
     else inter.take (inter.length - 2) ++ [inter.getLastD 'a'])
  else if porterMeasure inter == 1 && endsCVC inter then inter ++ cl "e"
  else inter

/-- Step 1b: NLTK's `ied` extension, then `(m>0) eed -> ee`, then `ed`/`ing`
removal (requiring a vowel in the remaining stem) followed by the fix-up
rules of `step1bPost`. -/
def step1b (w : List Char) : List Char :=
  if endsWith w (cl "ied") then
    (if w.length == 4 then dropSuf w (cl "ied") ++ cl "ie"
     else dropSuf w (cl "ied") ++ cl "i")
  else if endsWith w (cl "eed") then
    (let st := dropSuf w (cl "eed")
     if 0 < porterMeasure st then st ++ cl "ee" else w)
  else if endsWith w (cl "ed") && containsVowel (dropSuf w (cl "ed")) then
    step1bPost (dropSuf w (cl "ed"))
  else if endsWith w (cl "ing") && containsVowel (dropSuf w (cl "ing")) then
    step1bPost (dropSuf w (cl "ing"))
  else w

/-- Step 1c with the NLTK condition: `y -> i` only when the stem is longer
than one letter and ends in a consonant. -/
def step1c (w : List Char) : List Char :=
  if endsWith w (cl "y") then
    (let st := dropSuf w (cl "y")
     if decide (1 < st.length) && lastIsCons st then st ++ cl "i" else w)
  else w

/-- Step 3 rules, all guarded by positive measure. -/
def step3 (w : List Char) : List Char :=
  applyRuleList w
    [(cl "icate", cl "ic", some hasPosMeasure),
     (cl "ative", [], some hasPosMeasure),
     (cl "alize", cl "al", some hasPosMeasure),
     (cl "iciti", cl "ic", some hasPosMeasure),
     (cl "ical", cl "ic", some hasPosMeasure),
     (cl "ful", [], some hasPosMeasure),
     (cl "ness", [], some hasPosMeasure)]

/-- Step 2.  The NLTK extension applies `alli -> al` first (when measure is
positive) and feeds the result to step 3; otherwise the published rule list
runs with the `bli -> ble` variant, the extra `fulli -> ful` rule and the
`logi -> log` rule whose measure condition uses the word minus three
letters. -/
def step2 (w : List Char) : List Char :=
  if endsWith w (cl "alli") && hasPosMeasure (dropSuf w (cl "alli")) then
    step3 (dropSuf w (cl "alli") ++ cl "al")
  else
    applyRuleList w
      [(cl "ational", cl "ate", some hasPosMeasure),
       (cl "tional", cl "tion", some hasPosMeasure),
       (cl "enci", cl "ence", some hasPosMeasure),
       (cl "anci", cl "ance", some hasPosMeasure),
       (cl "izer", cl "ize", some hasPosMeasure),
       (cl "bli", cl "ble", some hasPosMeasure),
       (cl "alli", cl "al", some hasPosMeasure),
       (cl "entli", cl "ent", some hasPosMeasure),
       (cl "eli", cl "e", some hasPosMeasure),
       (cl "ousli", cl "ous", some hasPosMeasure),
       (cl "ization", cl "ize", some hasPosMeasure),
       (cl "ation", cl "ate", some hasPosMeasure),
       (cl "ator", cl "ate", some hasPosMeasure),
       (cl "alism", cl "al", some hasPosMeasure),
       (cl "iveness", cl "ive", some hasPosMeasure),
       (cl "fulness", cl "ful", some hasPosMeasure),
       (cl "ousness", cl "ous", some hasPosMeasure),
       (cl "aliti", cl "al", some hasPosMeasure),
       (cl "iviti", cl "ive", some hasPosMeasure),
       (cl "biliti", cl "ble", some hasPosMeasure),
       (cl "fulli", cl "ful", some hasPosMeasure),
       (cl "logi", cl "log",
        some (fun _ => hasPosMeasure (w.take (w.length - 3))))]

/-- Step 4 rules: removal under measure > 1, with the `ion` rule also
requiring the stem to end in s or t. -/
def step4 (w : List Char) : List Char :=
  applyRuleList w
    [(cl "al", [], some measureGT1),
     (cl "ance", [], some measureGT1),
     (cl "ence", [], some measureGT1),
     (cl "er", [], some measureGT1),
     (cl "ic", [], some measureGT1),
     (cl "able", [], some measureGT1),
     (cl "ible", [], some measureGT1),
     (cl "ant", [], some measureGT1),
     (cl "ement", [], some measureGT1),
     (cl "ment", [], some measureGT1),
     (cl "ent", [], some measureGT1),
     (cl "ion", [],
      some (fun st => measureGT1 st && (cl "st").contains (st.getLastD ' '))),
     (cl "ou", [], some measureGT1),
     (cl "ism", [], some measureGT1),
     (cl "ate", [], some measureGT1),
     (cl "iti", [], some measureGT1),
     (cl "ous", [], some measureGT1),
     (cl "ive", [], some measureGT1),
     (cl "ize", [], some measureGT1)]

/-- Step 5a: drop a final `e` when the measure of the rest exceeds 1, or
equals 1 without a cvc ending. -/
def step5a (w : List Char) : List Char :=
  if endsWith w (cl "e") then
    (let st := dropSuf w (cl "e")
     if 1 < porterMeasure st then st
     else if porterMeasure st == 1 && !endsCVC st then st
     else w)
  else w

/-- Step 5b: `ll -> l` when the measure of the word minus its last letter
exceeds 1. -/
def step5b (w : List Char) : List Char :=
  if endsWith w (cl "ll") && measureGT1 (w.take (w.length - 1)) then
    w.take (w.length - 2) ++ cl "l"
  else w

/-- The irregular-form pool of NLTK_EXTENSIONS mode. -/
def pool : List (String × String) :=
  [("sky", "sky"), ("skies", "sky"), ("dying", "die"), ("lying", "lie"),
   ("tying", "tie"), ("news", "news"), ("innings", "inning"),
   ("inning", "inning"), ("outings", "outing"), ("outing", "outing"),
   ("cannings", "canning"), ("canning", "canning"), ("howe", "howe"),
   ("proceed", "proceed"), ("exceed", "exceed"), ("succeed", "succeed")]

/-- `PorterStemmer.stem` on an already-lowercase word: pool lookup, the
length-at-most-2 guard, then steps 1a through 5b. -/
def stem (w : List Char) : List Char :=
  match pool.lookup (String.mk w) with
  | some r => r.toList
  | none =>
    if w.length ≤ 2 then w
    else step5b (step5a (step4 (step3 (step2 (step1c (step1b (step1a w)))))))

end Porter

/-- NLTK's english stopword list (`stopwords.words('english')`, line 25)
restricted to its purely alphabetic entries.  The full list additionally
holds apostrophe contractions (don, should, aren ... appear here, their
contracted forms with apostrophes do not); since `preprocess_text` only
tests tokens made of letters — the regex turns every other character into a
space first — those entries can never match and omitting them leaves the
composite function unchanged. -/
def stopwords : List String :=
  ["i", "me", "my", "myself", "we", "our", "ours", "ourselves", "you",
   "your", "yours", "yourself", "yourselves", "he", "him", "his", "himself",
   "she", "her", "hers", "herself", "it", "its", "itself", "they", "them",
   "their", "theirs", "themselves", "what", "which", "who", "whom", "this",
   "that", "these", "those", "am", "is", "are", "was", "were", "be", "been",
   "being", "have", "has", "had", "having", "do", "does", "did", "doing",
   "a", "an", "the", "and", "but", "if", "or", "because", "as", "until",
   "while", "of", "at", "by", "for", "with", "about", "against", "between",
   "into", "through", "during", "before", "after", "above", "below", "to",
   "from", "up", "down", "in", "out", "on", "off", "over", "under", "again",
   "further", "then", "once", "here", "there", "when", "where", "why", "how",
   "all", "any", "both", "each", "few", "more", "most", "other", "some",
   "such", "no", "nor", "not", "only", "own", "same", "so", "than", "too",
   "very", "s", "t", "can", "will", "just", "don", "should", "now", "d",
   "ll", "m", "o", "re", "ve", "y", "ain", "aren", "couldn", "didn",
   "doesn", "hadn", "hasn", "haven", "isn", "ma", "mightn", "mustn",
   "needn", "shan", "shouldn", "wasn", "weren", "won", "wouldn"]

/-- Python `str.lower` per character (ASCII model; the regex keeps only
ASCII letters right after, so this composite agrees with the source on the
characters that can survive). -/
def pyLower (c : Char) : Char := c.toLower

/-- The substitution `re.sub(r"[^A-Za-z]", " ", ...)` per character
(`Char.isAlpha` is exactly the ASCII `[A-Za-z]` test). -/
def subNonAlpha (c : Char) : Char := if c.isAlpha then c else ' '

/-- Python `str.split()` worker: split on runs of whitespace, dropping
empty pieces; `acc` holds the current token reversed. -/
def pySplitAux : List Char → List Char → List (List Char)
  | acc, [] => if acc.isEmpty then [] else [acc.reverse]
  | acc, c :: cs =>
    if c.isWhitespace then
      (if acc.isEmpty then pySplitAux [] cs else acc.reverse :: pySplitAux [] cs)
    else pySplitAux (c :: acc) cs

/-- Python `str.split()` with no arguments. -/
def pySplit (l : List Char) : List (List Char) := pySplitAux [] l

/-- Rejoin tokens with single spaces (`" ".join(tokens)`). -/
def joinSpaces : List (List Char) → List Char
  | [] => []
  | [t] => t
  | t :: t2 :: ts => t ++ ' ' :: joinSpaces (t2 :: ts)

/-- Stopword filtering then stemming, in the source's order (line 25):
`[PorterStemmer().stem(word) for word in tokens if word not in
stopwords.words('english')]`. -/
def processTokens (tokens : List (List Char)) : List (List Char) :=
  (tokens.filter (fun t => !(stopwords.contains (String.mk t)))).map Porter.stem

/-- Token pipeline of `preprocess_text` (lines 22-26): lowercase, replace
non-letters by spaces, split, drop stopwords, stem. -/
def preprocessCore (l : List Char) : List (List Char) :=
  processTokens (pySplit ((l.map pyLower).map subNonAlpha))

/-- Embeds `preprocess_text` (lines 22-26). -/
def preprocess_text (s : String) : String :=
  String.mk (joinSpaces (preprocessCore s.data))

/-- Row of the uploaded CSV as read at line 151; `none` models a null in
one of the three required columns. -/
structure UploadRow where
  description : Option String
  priority : Option String
  assigned_to : Option String

/-- Embeds `df.dropna(subset=['description', 'priority', 'assigned_to'])`
(line 152): rows with a null in a required column are dropped. -/
def dropnaRows (rows : List UploadRow) : List (String × String × String) :=
  rows.filterMap (fun r =>
    match r.description, r.priority, r.assigned_to with
    | some d, some p, some a => some (d, p, a)
    | _, _, _ => none)

/-- Embeds `df['processed'] = df['description'].apply(preprocess_text)`
(line 153). -/
def processedColumn (rows : List UploadRow) : List String :=
  (dropnaRows rows).map (fun r => preprocess_text r.1)

/-- Embeds the argument of `get_sentence_embeddings` at line 157:
`df['description'].tolist()` — the raw description column. -/
def embeddingInput (rows : List UploadRow) : List String :=
  (dropnaRows rows).map (fun r => r.1)

end TaskApp

namespace TaskApp

/-- Auxiliary: `countP` over `replicate`. -/
theorem countP_replicate (p : Task → Bool) (a : Task) (n : ℕ) :
    (List.replicate n a).countP p = if p a then n else 0 := by
  induction n with
  | zero => simp
  | succ n ih =>
    simp only [List.replicate_succ, List.countP_cons, ih]
    by_cases h : p a <;> simp [h]

/-- Auxiliary: `roundHalfEven` never rounds down by more than a half. -/
theorem roundHalfEven_ge (q : ℚ) : q - 1/2 ≤ (roundHalfEven q : ℚ) := by
  have hfl : (⌊q⌋ : ℚ) ≤ q := Int.floor_le q
  have hfu : q < (⌊q⌋ : ℚ) + 1 := Int.lt_floor_add_one q
  unfold roundHalfEven
  split
  · next h => linarith
  · split
    · push_cast; linarith
    · split <;> push_cast <;> linarith

/-- Auxiliary: `roundHalfEven` never rounds up by more than a half. -/
theorem roundHalfEven_le (q : ℚ) : (roundHalfEven q : ℚ) ≤ q + 1/2 := by
  have hfl : (⌊q⌋ : ℚ) ≤ q := Int.floor_le q
  have hfu : q < (⌊q⌋ : ℚ) + 1 := Int.lt_floor_add_one q
  unfold roundHalfEven
  split
  · next h => linarith
  · next h =>
    push_neg at h
    split
    · next h2 => push_cast; linarith
    · next h2 =>
      push_neg at h2
      have heq : q - (⌊q⌋ : ℚ) = 1/2 := le_antisymm h2 h
      split <;> push_cast <;> linarith

/-- Auxiliary: rounding a non-negative rational gives a non-negative integer. -/
theorem roundHalfEven_nonneg {q : ℚ} (h : 0 ≤ q) : 0 ≤ roundHalfEven q := by
  have hfl : 0 ≤ ⌊q⌋ := Int.floor_nonneg.mpr h
  unfold roundHalfEven
  split
  · exact hfl
  · split
    · omega
    · split <;> omega

/-- Auxiliary: rounding cannot exceed an integer upper bound of the input. -/
theorem roundHalfEven_le_int {q : ℚ} {B : ℤ} (h : q ≤ (B : ℚ)) :
    roundHalfEven q ≤ B := by
  have h1 : (roundHalfEven q : ℚ) ≤ (B : ℚ) + 1/2 :=
    le_trans (roundHalfEven_le q) (by linarith)
  have h2 : (roundHalfEven q : ℚ) < (B : ℚ) + 1 := by linarith
  have h3 : roundHalfEven q < B + 1 := by exact_mod_cast h2
  omega

/-- Auxiliary: a non-negative rational rounds to 0 exactly when it is at
most one half (one half itself rounds to the even integer 0). -/
theorem roundHalfEven_eq_zero_iff {q : ℚ} (h0 : 0 ≤ q) :
    roundHalfEven q = 0 ↔ q ≤ 1/2 := by
  constructor
  · intro h
    have hge := roundHalfEven_ge q
    rw [h] at hge
    push_cast at hge
    linarith
  · intro h
    have hf : ⌊q⌋ = 0 := by
      rw [Int.floor_eq_zero_iff]
      constructor
      · exact h0
      · linarith
    unfold roundHalfEven
    rw [hf]
    push_cast
    rcases lt_or_eq_of_le h with hlt | heq
    · rw [if_pos (by linarith)]
    · rw [if_neg (by linarith), if_neg (by linarith), if_pos (dvd_zero 2)]

/-- C1.  `calculate_completion_rate` returns
`round(100 * completed_count / total_count, 2)` (here: exact rational
arithmetic rounded half-to-even at two decimals), and 0 for the empty
sequence, exactly as the spec-side formula `completionRateSpec` states. -/
theorem completion_rate_matches_spec (tasks : List Task) :
    calculate_completion_rate tasks = completionRateSpec tasks := by
  unfold calculate_completion_rate completionRateSpec
  rcases tasks with _ | ⟨t, ts⟩
  · simp
  · rw [if_neg (by simp), if_neg (by simp)]
    have h : ((completedCount (t :: ts) : ℚ) / ((t :: ts).length : ℚ)) * 100
        = 100 * (completedCount (t :: ts) : ℚ) / ((t :: ts).length : ℚ) := by
      ring
    rw [h]

/-- C2 (amended).  For every non-empty task sequence the completion rate
lies in [0,100]; it equals 0 exactly when `20000 * completed ≤ total`,
i.e. when the exact percentage is at most 0.005 (so a completed count of 0
gives 0, but so does any sufficiently small positive fraction). -/
theorem completion_rate_bounds (tasks : List Task) (h : tasks ≠ []) :
    0 ≤ calculate_completion_rate tasks ∧
    calculate_completion_rate tasks ≤ 100 ∧
    (calculate_completion_rate tasks = 0 ↔
      20000 * completedCount tasks ≤ tasks.length) := by
  have hne : tasks.isEmpty = false := by
    cases tasks with
    | nil => exact absurd rfl h
    | cons a l => rfl
  have hlen : 0 < tasks.length := List.length_pos.mpr h
  have hlenQ : (0 : ℚ) < (tasks.length : ℚ) := by exact_mod_cast hlen
  have hcle : completedCount tasks ≤ tasks.length := List.countP_le_length _
  have hc0 : (0 : ℚ) ≤ (completedCount tasks : ℚ) := by positivity
  have hcn : (completedCount tasks : ℚ) ≤ (tasks.length : ℚ) := by
    exact_mod_cast hcle
  have hrate : calculate_completion_rate tasks =
      (roundHalfEven ((completedCount tasks : ℚ) / (tasks.length : ℚ)
        * 100 * 100) : ℚ) / 100 := by
    unfold calculate_completion_rate pyRound2
    rw [hne]
    simp
  have hq : (completedCount tasks : ℚ) / (tasks.length : ℚ) * 100 * 100
      = 10000 * (completedCount tasks : ℚ) / (tasks.length : ℚ) := by
    ring
  have hq0 : (0 : ℚ) ≤ 10000 * (completedCount tasks : ℚ) / (tasks.length : ℚ) := by
    positivity
  have hqB : 10000 * (completedCount tasks : ℚ) / (tasks.length : ℚ)
      ≤ ((10000 : ℤ) : ℚ) := by
    rw [div_le_iff hlenQ]
    push_cast
    linarith
  rw [hrate, hq]
  refine ⟨?_, ?_, ?_⟩
  · have hz := roundHalfEven_nonneg hq0
    have hcast : (0 : ℚ) ≤ (roundHalfEven (10000 * (completedCount tasks : ℚ)
        / (tasks.length : ℚ)) : ℚ) := by exact_mod_cast hz
    positivity
  · have hz := roundHalfEven_le_int hqB
    have hcast : (roundHalfEven (10000 * (completedCount tasks : ℚ)
        / (tasks.length : ℚ)) : ℚ) ≤ 10000 := by exact_mod_cast hz
    linarith
  · rw [div_eq_zero_iff]
    constructor
    · intro hz
      rcases hz with hz | hz
      · have hz' : roundHalfEven (10000 * (completedCount tasks : ℚ)
            / (tasks.length : ℚ)) = 0 := by exact_mod_cast hz
        have hle := (roundHalfEven_eq_zero_iff hq0).mp hz'
        rw [div_le_iff hlenQ] at hle
        have h20 : (20000 : ℚ) * (completedCount tasks : ℚ) ≤ (tasks.length : ℚ) := by
          linarith
        exact_mod_cast h20
      · norm_num at hz
    · intro hle
      left
      have hleQ : (20000 : ℚ) * (completedCount tasks : ℚ) ≤ (tasks.length : ℚ) := by
        exact_mod_cast hle
      have hz : roundHalfEven (10000 * (completedCount tasks : ℚ)
          / (tasks.length : ℚ)) = 0 := by
        rw [roundHalfEven_eq_zero_iff hq0, div_le_iff hlenQ]
        linarith
      exact_mod_cast hz

/-- C2 witness: the amended bounds at the one-element completed list, where
the rate is 100 and the zero condition `20000 * 1 ≤ 1` indeed fails. -/
theorem completion_rate_bounds_witness :
    0 ≤ calculate_completion_rate [completedTaskEx] ∧
    calculate_completion_rate [completedTaskEx] ≤ 100 ∧
    (calculate_completion_rate [completedTaskEx] = 0 ↔
      20000 * completedCount [completedTaskEx] ≤ [completedTaskEx].length) :=
  completion_rate_bounds [completedTaskEx] (by simp)

/-- C2 counterexample: with 20000 pending tasks and one completed task the
completed count is 1 yet the rate rounds to 0, refuting "the result is 0
if and only if completed_count is 0" for non-empty sequences. -/
theorem completion_rate_zero_iff_fails :
    completedCount manyTasks = 1 ∧
    calculate_completion_rate manyTasks = 0 ∧
    ¬(calculate_completion_rate manyTasks = 0 ↔ completedCount manyTasks = 0) := by
  have h1 : completedCount manyTasks = 1 := by
    unfold completedCount manyTasks
    rw [List.countP_append]
    rw [List.countP_eq_zero.mpr
      (by intro a ha; rw [List.eq_of_mem_replicate ha]; decide)]
    decide
  have hlen : manyTasks.length = 20001 := by
    rw [manyTasks, List.length_append, List.length_replicate, List.length_singleton]
  have hne : manyTasks.isEmpty = false := by
    cases hm : manyTasks with
    | nil => rw [hm, List.length_nil] at hlen; simp at hlen
    | cons a l => rfl
  have h2 : calculate_completion_rate manyTasks = 0 := by
    unfold calculate_completion_rate
    rw [hne, h1, hlen]
    simp only [Bool.false_eq_true, if_false]
    unfold pyRound2
    have hz : roundHalfEven (((1 : ℕ) : ℚ) / ((20001 : ℕ) : ℚ) * 100 * 100) = 0 := by
      rw [roundHalfEven_eq_zero_iff (by positivity)]
      rw [div_mul_eq_mul_div, div_mul_eq_mul_div, div_le_iff (by positivity)]
      push_cast
      norm_num
    rw [hz]
    norm_num
  refine ⟨h1, h2, ?_⟩
  intro hiff
  have hz := hiff.mp h2
  omega

/-- C5.  Submitting the Add Task form with an empty description leaves the
task store exactly unchanged and surfaces nothing; a submission with a
non-empty description appends exactly one new record (and shows only the
success message — no error path exists). -/
theorem addTask_empty_vs_nonempty (tasks : List Task) (hours : ℚ)
    (due category priority status : String) :
    addTaskHandler tasks true "" hours due category priority status
      = (tasks, none) ∧
    ∀ d : String, d ≠ "" →
      addTaskHandler tasks true d hours due category priority status =
        (tasks ++ [⟨d, hours, due, category, priority, status⟩],
         some "Task added successfully!") := by
  constructor
  · rfl
  · intro d hd
    have hbeq : (d == "") = false := by
      simp [hd]
    unfold addTaskHandler
    rw [hbeq]
    rfl

/-- C5 witness: the two behaviours at concrete inputs. -/
theorem addTask_empty_vs_nonempty_witness :
    addTaskHandler [] true "" 2 "2026-01-01" "general" "Low" "Pending"
      = ([], none) ∧
    addTaskHandler [] true "Fix login bug" 2 "2026-01-01" "general" "Low" "Pending"
      = ([⟨"Fix login bug", 2, "2026-01-01", "general", "Low", "Pending"⟩],
         some "Task added successfully!") := by
  have h := addTask_empty_vs_nonempty [] 2 "2026-01-01" "general" "Low" "Pending"
  exact ⟨h.1, h.2 "Fix login bug" (by decide)⟩

/-- C9.  The only interaction that changes the task store is a submitted
Add Task with non-empty description, and it appends exactly one record at
the end, preserving every stored record and their order; Dashboard, the
Task list and AI Insights leave the store unchanged. -/
theorem appStep_frame (tasks : List Task) (a : PageAction) :
    appStep tasks a = tasks ∨
    ∃ d hours du c p s, a = PageAction.addTask true d hours du c p s ∧
      d ≠ "" ∧ appStep tasks a = tasks ++ [⟨d, hours, du, c, p, s⟩] := by
  cases a with
  | dashboard => left; rfl
  | taskList sf pf => left; rfl
  | aiInsights ds => left; rfl
  | addTask sub d hours du c p s =>
    cases sub with
    | false => left; rfl
    | true =>
      by_cases hd : d = ""
      · left
        subst hd
        rfl
      · right
        refine ⟨d, hours, du, c, p, s, rfl, hd, ?_⟩
        have hbeq : (d == "") = false := by
          simp [hd]
        show (addTaskHandler tasks true d hours du c p s).1 = _
        unfold addTaskHandler
        rw [hbeq]
        rfl

/-- C10.  For every task list and every filter choice, the Task List view
shows exactly the tasks matching the selected status (all when `"All"`)
and the selected priority (all when `"All"`), in stored order; with both
filters at `"All"` it shows the full list. -/
theorem taskList_filter_spec (tasks : List Task) (sf pf : String) :
    taskListFilter tasks sf pf =
      tasks.filter (fun t =>
        (sf == "All" || t.status == sf) && (pf == "All" || t.priority == pf)) ∧
    taskListFilter tasks "All" "All" = tasks := by
  constructor
  · by_cases hsf : sf = "All" <;> by_cases hpf : pf = "All"
    · subst hsf; subst hpf
      simp [taskListFilter]
    · subst hsf
      have h2 : (pf == "All") = false := by simp [hpf]
      simp [taskListFilter, h2]
    · subst hpf
      have h1 : (sf == "All") = false := by simp [hsf]
      simp [taskListFilter, h1]
    · have h1 : (sf == "All") = false := by simp [hsf]
      have h2 : (pf == "All") = false := by simp [hpf]
      simp only [taskListFilter, h1, h2, Bool.false_eq_true, if_false,
        List.filter_filter, Bool.false_or]
      apply List.filter_congr
      intro t _
      exact Bool.and_comm _ _
  · simp [taskListFilter]

/-- Auxiliary: the fold computing optuna's best trial returns the start or
a list element, and its value bounds the start's and every element's. -/
theorem bestTrial_spec (t : XGBParams × ℚ) (ts : List (XGBParams × ℚ)) :
    (bestTrial t ts = t ∨ bestTrial t ts ∈ ts) ∧
    t.2 ≤ (bestTrial t ts).2 ∧ ∀ u ∈ ts, u.2 ≤ (bestTrial t ts).2 := by
  induction ts generalizing t with
  | nil => exact ⟨Or.inl rfl, le_refl _, by intro u hu; cases hu⟩
  | cons v vs ih =>
    have hstep : bestTrial t (v :: vs) = bestTrial (if t.2 < v.2 then v else t) vs := rfl
    rcases ih (if t.2 < v.2 then v else t) with ⟨hmem, hge, hall⟩
    refine ⟨?_, ?_, ?_⟩
    · rw [hstep]
      rcases hmem with hm | hm
      · rw [hm]
        split
        · exact Or.inr (List.mem_cons_self _ _)
        · exact Or.inl rfl
      · exact Or.inr (List.mem_cons_of_mem _ hm)
    · rw [hstep]
      refine le_trans ?_ hge
      split
      · next hlt => exact le_of_lt hlt
      · exact le_refl _
    · intro u hu
      rw [hstep]
      rcases List.mem_cons.mp hu with rfl | hu'
      · refine le_trans ?_ hge
        split
        · exact le_refl _
        · next hnlt => exact le_of_not_lt hnlt
      · exact hall u hu'

/-- C7.  `optimize_xgb` runs exactly 10 trials; provided the sampler obeys
the suggested ranges, every trial's parameters lie in
`[50,200] x [2,10] x [0.01,0.3]`; each trial's objective equals the score
of a model fitted on the training data evaluated on that same training
data; and the returned model is refitted on the training data with the
parameters of a best-scoring trial. -/
theorem optimize_xgb_spec {D M : Type} (fitXGB : XGBParams → D → M)
    (scoreXGB : M → D → ℚ) (sampler : ℕ → XGBParams) (data : D)
    (hs : ∀ i, xgbRange (sampler i)) :
    (optimize_xgb fitXGB scoreXGB sampler data).2.length = 10 ∧
    (∀ t ∈ (optimize_xgb fitXGB scoreXGB sampler data).2,
      xgbRange t.1 ∧ t.2 = scoreXGB (fitXGB t.1 data) data) ∧
    ∃ b ∈ (optimize_xgb fitXGB scoreXGB sampler data).2,
      (∀ t ∈ (optimize_xgb fitXGB scoreXGB sampler data).2, t.2 ≤ b.2) ∧
      (optimize_xgb fitXGB scoreXGB sampler data).1 = fitXGB b.1 data := by
  refine ⟨?_, ?_, ?_⟩
  · simp [optimize_xgb]
  · intro t ht
    simp only [optimize_xgb, List.mem_map, List.mem_range] at ht
    rcases ht with ⟨i, _, rfl⟩
    exact ⟨hs i, rfl⟩
  · have h0 : ((sampler 0, scoreXGB (fitXGB (sampler 0) data) data) : XGBParams × ℚ)
        ∈ (optimize_xgb fitXGB scoreXGB sampler data).2 := by
      simp only [optimize_xgb, List.mem_map, List.mem_range]
      exact ⟨0, by norm_num, rfl⟩
    rcases bestTrial_spec (sampler 0, scoreXGB (fitXGB (sampler 0) data) data)
        (optimize_xgb fitXGB scoreXGB sampler data).2 with ⟨hmem, _, hall⟩
    refine ⟨bestTrial (sampler 0, scoreXGB (fitXGB (sampler 0) data) data)
        (optimize_xgb fitXGB scoreXGB sampler data).2, ?_, hall, rfl⟩
    rcases hmem with hm | hm
    · rw [hm]; exact h0
    · exact hm

/-- C7 witness: the trial trace under a constant in-range sampler with a
trivial model type. -/
theorem optimize_xgb_spec_witness :
    (optimize_xgb (fun _ _ => ()) (fun _ _ => (0 : ℚ))
       (fun _ => (⟨50, 2, 1/100⟩ : XGBParams)) ()).2.length = 10 ∧
    (∀ t ∈ (optimize_xgb (fun _ _ => ()) (fun _ _ => (0 : ℚ))
       (fun _ => (⟨50, 2, 1/100⟩ : XGBParams)) ()).2,
      xgbRange t.1 ∧ t.2 = 0) ∧
    ∃ b ∈ (optimize_xgb (fun _ _ => ()) (fun _ _ => (0 : ℚ))
       (fun _ => (⟨50, 2, 1/100⟩ : XGBParams)) ()).2,
      (∀ t ∈ (optimize_xgb (fun _ _ => ()) (fun _ _ => (0 : ℚ))
         (fun _ => (⟨50, 2, 1/100⟩ : XGBParams)) ()).2, t.2 ≤ b.2) ∧
      (optimize_xgb (fun _ _ => ()) (fun _ _ => (0 : ℚ))
         (fun _ => (⟨50, 2, 1/100⟩ : XGBParams)) ()).1 = () :=
  optimize_xgb_spec (fun _ _ => ()) (fun _ _ => (0 : ℚ))
    (fun _ => (⟨50, 2, 1/100⟩ : XGBParams)) ()
    (fun _ => by refine ⟨?_, ?_, ?_, ?_, ?_, ?_⟩ <;> norm_num)

/-- C8.  The AI Insights confusion matrix has one row and one column per
known label-encoder class — also for classes absent from the test fold —
and zero-denominator precision/recall entries are reported as 0 (sklearn's
`zero_division=0`), not raised as errors. -/
theorem insights_report_full_axes (numClasses : ℕ) (yTrue yPred : List ℕ) :
    (insightsConfusion numClasses yTrue yPred).length = numClasses ∧
    (∀ row ∈ insightsConfusion numClasses yTrue yPred, row.length = numClasses) ∧
    (∀ c, yPred.count c = 0 → precisionFor yTrue yPred c = 0) ∧
    (∀ c, yTrue.count c = 0 → recallFor yTrue yPred c = 0) := by
  refine ⟨?_, ?_, ?_, ?_⟩
  · simp [insightsConfusion, confusion_matrix]
  · intro row hrow
    simp only [insightsConfusion, confusion_matrix, List.mem_map] at hrow
    rcases hrow with ⟨i, _, rfl⟩
    simp
  · intro c hc
    simp [precisionFor, hc]
  · intro c hc
    simp [recallFor, hc]

/-- Auxiliary: membership in `uniqueKeys` is membership in the column. -/
theorem mem_uniqueKeys (l : List String) (x : String) :
    x ∈ uniqueKeys l ↔ x ∈ l := by
  induction l with
  | nil => simp [uniqueKeys]
  | cons a as ih =>
    simp only [uniqueKeys, List.mem_cons, List.mem_filter, ih]
    constructor
    · rintro (rfl | ⟨hmem, _⟩)
      · exact Or.inl rfl
      · exact Or.inr hmem
    · rintro (rfl | hmem)
      · exact Or.inl rfl
      · by_cases hax : x = a
        · exact Or.inl hax
        · exact Or.inr ⟨hmem, by simp [hax]⟩

/-- Auxiliary: `find?` on a cons whose head satisfies the predicate
(the predicate is explicit, so rewriting is directed). -/
theorem find?_cons_true {α : Type} (pr : α → Bool) (a : α) (l : List α)
    (h : pr a = true) : (a :: l).find? pr = some a :=
  List.find?_cons_of_pos l h

/-- Auxiliary: `find?` on a cons whose head fails the predicate. -/
theorem find?_cons_false {α : Type} (pr : α → Bool) (a : α) (l : List α)
    (h : pr a = false) : (a :: l).find? pr = l.find? pr :=
  List.find?_cons_of_neg l (by simp [h])

/-- Auxiliary: unfolding `foldMinPair` one step. -/
theorem foldMinPair_cons (p q : String × ℕ) (qs : List (String × ℕ)) :
    foldMinPair p (q :: qs) = foldMinPair (if q.2 < p.2 then q else p) qs := rfl

/-- Auxiliary: the running minimum of `idxmin` is at most the start value. -/
theorem foldMin_le_start (ps : List (String × ℕ)) (p : String × ℕ) :
    (foldMinPair p ps).2 ≤ p.2 := by
  induction ps generalizing p with
  | nil => exact le_refl _
  | cons q qs ih =>
    rw [foldMinPair_cons]
    refine le_trans (ih _) ?_
    split
    · next h => exact le_of_lt h
    · exact le_refl _

/-- Auxiliary: the running minimum of `idxmin` bounds every entry. -/
theorem foldMin_le_mem (ps : List (String × ℕ)) (p : String × ℕ) :
    ∀ u ∈ p :: ps, (foldMinPair p ps).2 ≤ u.2 := by
  induction ps generalizing p with
  | nil =>
    intro u hu
    rcases List.mem_cons.mp hu with rfl | hu'
    · exact le_refl _
    · cases hu'
  | cons q qs ih =>
    intro u hu
    rw [foldMinPair_cons]
    have hp' := foldMin_le_start qs (if q.2 < p.2 then q else p)
    rcases List.mem_cons.mp hu with rfl | hu'
    · refine le_trans hp' ?_
      split
      · next h => exact le_of_lt h
      · exact le_refl _
    · rcases List.mem_cons.mp hu' with rfl | hu''
      · refine le_trans hp' ?_
        split
        · exact le_refl _
        · next h => exact le_of_not_lt h
      · exact ih _ u (List.mem_cons_of_mem _ hu'')

/-- Auxiliary: the fold of `idxmin` selects the first entry of the series
whose value equals the minimum. -/
theorem foldMin_find (ps : List (String × ℕ)) (p : String × ℕ) :
    (p :: ps).find? (fun x => x.2 == (foldMinPair p ps).2)
      = some (foldMinPair p ps) := by
  induction ps generalizing p with
  | nil =>
    exact find?_cons_true (fun x => x.2 == (foldMinPair p []).2) p [] (by simp [foldMinPair])
  | cons q qs ih =>
    rw [foldMinPair_cons]
    by_cases hq : q.2 < p.2
    · rw [if_pos hq]
      have hr := foldMin_le_start qs q
      have hpm : ((fun x => x.2 == (foldMinPair q qs).2) p) = false := by
        simp only [beq_eq_false_iff_ne, ne_eq]
        omega
      rw [find?_cons_false (fun x => x.2 == (foldMinPair q qs).2) p _ hpm]
      exact ih q
    · rw [if_neg hq]
      have hIH := ih p
      by_cases hp : (p.2 == (foldMinPair p qs).2) = true
      · rw [find?_cons_true (fun x => x.2 == (foldMinPair p qs).2) p _ hp] at hIH
        rw [find?_cons_true (fun x => x.2 == (foldMinPair p qs).2) p _ hp]
        exact hIH
      · have hp' : (p.2 == (foldMinPair p qs).2) = false := by
          simp only [Bool.not_eq_true] at hp
          exact hp
        rw [find?_cons_false (fun x => x.2 == (foldMinPair p qs).2) p _ hp'] at hIH
        rw [find?_cons_false (fun x => x.2 == (foldMinPair p qs).2) p _ hp']
        have hr := foldMin_le_start qs p
        have hne : p.2 ≠ (foldMinPair p qs).2 := by
          simpa [beq_eq_false_iff_ne] using hp'
        have hqm : ((fun x => x.2 == (foldMinPair p qs).2) q) = false := by
          simp only [beq_eq_false_iff_ne, ne_eq]
          omega
        rw [find?_cons_false (fun x => x.2 == (foldMinPair p qs).2) q _ hqm]
        exact hIH

/-- Auxiliary: `find?` by value commutes with the stable insertion. -/
theorem find_insertDesc (m : ℕ) (p : String × ℕ) (ps : List (String × ℕ)) :
    (insertDesc p ps).find? (fun x => x.2 == m)
      = (p :: ps).find? (fun x => x.2 == m) := by
  induction ps with
  | nil => rfl
  | cons q qs ih =>
    unfold insertDesc
    by_cases h : p.2 < q.2
    · rw [if_pos h]
      by_cases hq : (q.2 == m) = true
      · have hpm : ((fun x => x.2 == m) p) = false := by
          simp only [beq_iff_eq] at hq
          simp only [beq_eq_false_iff_ne, ne_eq]
          omega
        rw [find?_cons_true (fun x => x.2 == m) q _ hq,
          find?_cons_false (fun x => x.2 == m) p _ hpm,
          find?_cons_true (fun x => x.2 == m) q _ hq]
      · have hq' : (q.2 == m) = false := by
          simp only [Bool.not_eq_true] at hq
          exact hq
        rw [find?_cons_false (fun x => x.2 == m) q _ hq', ih]
        by_cases hp : (p.2 == m) = true
        · rw [find?_cons_true (fun x => x.2 == m) p _ hp,
            find?_cons_true (fun x => x.2 == m) p _ hp]
        · have hp' : (p.2 == m) = false := by
            simp only [Bool.not_eq_true] at hp
            exact hp
          rw [find?_cons_false (fun x => x.2 == m) p _ hp',
            find?_cons_false (fun x => x.2 == m) p _ hp',
            find?_cons_false (fun x => x.2 == m) q _ hq']
    · rw [if_neg h]

/-- Auxiliary: `find?` by value commutes with the stable descending sort. -/
theorem find_sortCountDesc (m : ℕ) (ps : List (String × ℕ)) :
    (sortCountDesc ps).find? (fun x => x.2 == m)
      = ps.find? (fun x => x.2 == m) := by
  induction ps with
  | nil => rfl
  | cons p ps ih =>
    show (insertDesc p (sortCountDesc ps)).find? _ = _
    rw [find_insertDesc]
    by_cases hp : (p.2 == m) = true
    · rw [find?_cons_true (fun x => x.2 == m) p _ hp,
        find?_cons_true (fun x => x.2 == m) p _ hp]
    · have hp' : (p.2 == m) = false := by
        simp only [Bool.not_eq_true] at hp
        exact hp
      rw [find?_cons_false (fun x => x.2 == m) p _ hp',
        find?_cons_false (fun x => x.2 == m) p _ hp', ih]

/-- Auxiliary: the stable insertion permutes the extended series. -/
theorem insertDesc_perm (p : String × ℕ) (ps : List (String × ℕ)) :
    List.Perm (insertDesc p ps) (p :: ps) := by
  induction ps with
  | nil => exact List.Perm.refl _
  | cons q qs ih =>
    unfold insertDesc
    split
    · exact ((ih.cons q).trans (List.Perm.swap p q qs))
    · exact List.Perm.refl _

/-- Auxiliary: the stable descending sort permutes the series. -/
theorem sortCountDesc_perm (ps : List (String × ℕ)) :
    List.Perm (sortCountDesc ps) ps := by
  induction ps with
  | nil => exact List.Perm.refl _
  | cons p ps ih =>
    exact (insertDesc_perm p (sortCountDesc ps)).trans (ih.cons p)

/-- Auxiliary: `find?` under a predicate change that agrees on members. -/
theorem find_congr_mem {p q : String → Bool} :
    ∀ {l : List String}, (∀ x ∈ l, p x = q x) → l.find? p = l.find? q := by
  intro l
  induction l with
  | nil => intro _; rfl
  | cons a as ih =>
    intro h
    have ha := h a (List.mem_cons_self a as)
    by_cases hp : p a = true
    · rw [find?_cons_true p a _ hp, find?_cons_true q a _ (ha ▸ hp)]
    · have hp' : p a = false := by
        simp only [Bool.not_eq_true] at hp
        exact hp
      rw [find?_cons_false p a _ hp', find?_cons_false q a _ (ha ▸ hp')]
      exact ih (fun x hx => h x (List.mem_cons_of_mem _ hx))

/-- C6.  For every non-empty assigned-to column, `recommend_user` returns a
user occurring in the column, that user's assigned count is minimal, and it
is exactly the first-encountered user among the minimum-count set (the
spec-side selection `recommendSpec`). -/
theorem recommend_user_min (l : List String) (hl : l ≠ []) :
    ∃ u, recommend_user l = some u ∧ u ∈ l ∧
      (∀ v ∈ l, l.count u ≤ l.count v) ∧ recommendSpec l = some u := by
  have hraw_ne : valueCountsRaw l ≠ [] := by
    cases l with
    | nil => exact absurd rfl hl
    | cons a as =>
      simp [valueCountsRaw, uniqueKeys]
  rcases hs : sortCountDesc (valueCountsRaw l) with _ | ⟨p, ps⟩
  · exfalso
    have hperm := sortCountDesc_perm (valueCountsRaw l)
    rw [hs] at hperm
    exact hraw_ne (hperm.nil_eq.symm)
  · set r := foldMinPair p ps with hrdef
    have hru : recommend_user l = some r.1 := by
      unfold recommend_user idxmin
      rw [hs]
    have hfind_sorted : (p :: ps).find? (fun x => x.2 == r.2) = some r :=
      foldMin_find ps p
    have hfind_raw : (valueCountsRaw l).find? (fun x => x.2 == r.2) = some r := by
      rw [← find_sortCountDesc r.2 (valueCountsRaw l), hs]
      exact hfind_sorted
    have hr_raw : r ∈ valueCountsRaw l := List.mem_of_find?_eq_some hfind_raw
    rcases List.mem_map.mp hr_raw with ⟨k0, hk0_mem, hk0_eq⟩
    have hr1 : r.1 = k0 := by rw [← hk0_eq]
    have hr2 : r.2 = l.count k0 := by rw [← hk0_eq]
    have hk0_l : k0 ∈ l := (mem_uniqueKeys l k0).mp hk0_mem
    have hmin_raw : ∀ u ∈ valueCountsRaw l, r.2 ≤ u.2 := by
      intro u hu
      have hu_sorted : u ∈ p :: ps := by
        rw [← hs]
        exact (sortCountDesc_perm (valueCountsRaw l)).mem_iff.mpr hu
      exact foldMin_le_mem ps p u hu_sorted
    have hmin_l : ∀ v ∈ l, r.2 ≤ l.count v := by
      intro v hv
      have hv_raw : (v, l.count v) ∈ valueCountsRaw l :=
        List.mem_map.mpr ⟨v, (mem_uniqueKeys l v).mpr hv, rfl⟩
      exact hmin_raw (v, l.count v) hv_raw
    have hspec : recommendSpec l = some r.1 := by
      unfold recommendSpec
      have hcongr : ∀ k ∈ uniqueKeys l,
          (decide (∀ v ∈ l, l.count k ≤ l.count v)) = (l.count k == r.2) := by
        intro k hk
        have hkl : k ∈ l := (mem_uniqueKeys l k).mp hk
        by_cases hmin_k : ∀ v ∈ l, l.count k ≤ l.count v
        · have he : l.count k = r.2 := by
            have h1 : l.count k ≤ l.count k0 := hmin_k k0 hk0_l
            have h2 : r.2 ≤ l.count k := hmin_l k hkl
            omega
          have hd1 : (decide (∀ v ∈ l, l.count k ≤ l.count v)) = true := by
            simp only [decide_eq_true_eq]
            exact hmin_k
          have hd2 : (l.count k == r.2) = true := by
            simp [he]
          rw [hd1, hd2]
        · have hne : l.count k ≠ r.2 := by
            intro he
            exact hmin_k (fun v hv => he ▸ hmin_l v hv)
          have hd1 : (decide (∀ v ∈ l, l.count k ≤ l.count v)) = false := by
            simp only [decide_eq_false_iff_not]
            exact hmin_k
          have hd2 : (l.count k == r.2) = false := by
            simp [hne]
          rw [hd1, hd2]
      rw [find_congr_mem hcongr]
      have hmapfind : (valueCountsRaw l).find? (fun x => x.2 == r.2)
          = ((uniqueKeys l).find? (fun k => l.count k == r.2)).map
              (fun k => (k, l.count k)) := by
        unfold valueCountsRaw
        rw [List.find?_map]
        rfl
      rw [hmapfind] at hfind_raw
      rcases hof : (uniqueKeys l).find? (fun k => l.count k == r.2) with _ | k1
      · rw [hof] at hfind_raw
        simp at hfind_raw
      · rw [hof] at hfind_raw
        simp only [Option.map_some'] at hfind_raw
        have hk1r : (k1, l.count k1) = r := by
          injection hfind_raw
        have hk1 : k1 = r.1 := by
          rw [← hk1r]
        rw [hk1]
    refine ⟨r.1, hru, ?_, ?_, hspec⟩
    · rw [hr1]
      exact hk0_l
    · intro v hv
      have := hmin_l v hv
      rw [hr1, ← hr2]
      exact this

/-- C6 witness: in the column ["alice", "bob", "alice"] the minimum-count
user is "bob". -/
theorem recommend_user_min_witness :
    ∃ u, recommend_user ["alice", "bob", "alice"] = some u ∧
      u ∈ ["alice", "bob", "alice"] ∧
      (∀ v ∈ ["alice", "bob", "alice"],
        (["alice", "bob", "alice"] : List String).count u
          ≤ (["alice", "bob", "alice"] : List String).count v) ∧
      recommendSpec ["alice", "bob", "alice"] = some u :=
  recommend_user_min ["alice", "bob", "alice"] (by decide)

/-- Auxiliary: a map whose function fixes every member is the identity. -/
theorem map_id_of_mem {α : Type} (f : α → α) (l : List α)
    (h : ∀ x ∈ l, f x = x) : l.map f = l := by
  induction l with
  | nil => rfl
  | cons a as ih =>
    simp only [List.map_cons, h a (List.mem_cons_self a as)]
    rw [ih (fun x hx => h x (List.mem_cons_of_mem _ hx))]

/-- Auxiliary: mapping a space-fixing character function over a space-join
maps each token. -/
theorem map_joinSpaces (f : Char → Char) (hf : f ' ' = ' ') :
    ∀ ts : List (List Char),
      (joinSpaces ts).map f = joinSpaces (ts.map (List.map f)) := by
  intro ts
  induction ts with
  | nil => rfl
  | cons t ts ih =>
    cases ts with
    | nil => rfl
    | cons t2 ts2 =>
      show (t ++ ' ' :: joinSpaces (t2 :: ts2)).map f
          = (t.map f) ++ ' ' :: joinSpaces ((t2 :: ts2).map (List.map f))
      rw [List.map_append, List.map_cons, hf, ih]

/-- Auxiliary: the split worker moves a whitespace-free prefix into the
accumulator. -/
theorem pySplitAux_nonws (t : List Char)
    (hnw : ∀ c ∈ t, c.isWhitespace = false) :
    ∀ (acc rest : List Char),
      pySplitAux acc (t ++ rest) = pySplitAux (t.reverse ++ acc) rest := by
  induction t with
  | nil => intro acc rest; rfl
  | cons c cs ih =>
    intro acc rest
    have hc : c.isWhitespace = false := hnw c (List.mem_cons_self c cs)
    show pySplitAux acc (c :: (cs ++ rest)) = _
    simp only [pySplitAux, hc, Bool.false_eq_true, if_false]
    rw [ih (fun x hx => hnw x (List.mem_cons_of_mem _ hx))]
    congr 1
    simp [List.reverse_cons, List.append_assoc]

/-- Auxiliary: splitting a space-join of nonempty whitespace-free tokens
recovers exactly the tokens. -/
theorem pySplit_joinSpaces :
    ∀ ts : List (List Char),
      (∀ t ∈ ts, t ≠ [] ∧ ∀ c ∈ t, c.isWhitespace = false) →
      pySplit (joinSpaces ts) = ts := by
  intro ts
  induction ts with
  | nil => intro _; rfl
  | cons t ts ih =>
    intro h
    obtain ⟨hne, hnw⟩ := h t (List.mem_cons_self t ts)
    have hne' : t.reverse.isEmpty = false := by
      cases ht : t.reverse with
      | nil => exact absurd (List.reverse_eq_nil_iff.mp ht) hne
      | cons a l => rfl
    cases ts with
    | nil =>
      show pySplitAux [] (joinSpaces [t]) = [t]
      have hjoin : joinSpaces [t] = t := rfl
      rw [hjoin]
      have hrun := pySplitAux_nonws t hnw [] []
      rw [List.append_nil] at hrun
      rw [hrun, List.append_nil]
      show (if t.reverse.isEmpty then [] else [t.reverse.reverse]) = [t]
      rw [hne']
      simp
    | cons t2 ts2 =>
      show pySplitAux [] (joinSpaces (t :: t2 :: ts2)) = t :: t2 :: ts2
      have hjoin : joinSpaces (t :: t2 :: ts2)
          = t ++ ' ' :: joinSpaces (t2 :: ts2) := rfl
      rw [hjoin,
        pySplitAux_nonws t hnw [] (' ' :: joinSpaces (t2 :: ts2)),
        List.append_nil]
      have hsp : (' ' : Char).isWhitespace = true := rfl
      simp only [pySplitAux, hsp, if_true, hne', Bool.false_eq_true, if_false]
      rw [List.reverse_reverse]
      have htail : pySplitAux [] (joinSpaces (t2 :: ts2)) = t2 :: ts2 :=
        ih (fun x hx => h x (List.mem_cons_of_mem _ hx))
      rw [htail]

/-- C4 counterexample: `preprocess_text` is not idempotent.  Stemming sends
the non-stopword "hows" to "how", which is an English stopword, so a second
pass removes it entirely. -/
theorem preprocess_not_idempotent :
    preprocess_text "hows" = "how" ∧
    preprocess_text (preprocess_text "hows") = "" ∧
    preprocess_text (preprocess_text "hows") ≠ preprocess_text "hows" := by
  refine ⟨?_, ?_, ?_⟩ <;> decide

/-- C4 (amended).  `preprocess_text` is a pure deterministic function, but
idempotence only holds conditionally: a second application returns the same
output whenever every token of the first output is a nonempty token that is
unchanged by lowercasing and by the non-letter substitution, contains no
whitespace, is not a stopword, and is a fixed point of the Porter stemmer.
In general a second application can differ ("hows" above), because
stemming may create stopword tokens or further-stemmable tokens. -/
theorem preprocess_idempotent_on_normal (s : String)
    (h : ∀ t ∈ preprocessCore s.data,
      t ≠ [] ∧ t.map pyLower = t ∧ t.map subNonAlpha = t ∧
      (∀ c ∈ t, c.isWhitespace = false) ∧
      stopwords.contains (String.mk t) = false ∧ Porter.stem t = t) :
    preprocess_text (preprocess_text s) = preprocess_text s := by
  unfold preprocess_text
  congr 1
  have hdata : (String.mk (joinSpaces (preprocessCore s.data))).data
      = joinSpaces (preprocessCore s.data) := rfl
  rw [hdata]
  suffices hcore : preprocessCore (joinSpaces (preprocessCore s.data))
      = preprocessCore s.data by
    rw [hcore]
  have h1 : (joinSpaces (preprocessCore s.data)).map pyLower
      = joinSpaces (preprocessCore s.data) := by
    rw [map_joinSpaces pyLower rfl]
    rw [map_id_of_mem (List.map pyLower) (preprocessCore s.data)
      (fun t ht => (h t ht).2.1)]
  have h2 : (joinSpaces (preprocessCore s.data)).map subNonAlpha
      = joinSpaces (preprocessCore s.data) := by
    rw [map_joinSpaces subNonAlpha rfl]
    rw [map_id_of_mem (List.map subNonAlpha) (preprocessCore s.data)
      (fun t ht => (h t ht).2.2.1)]
  have h3 : pySplit (joinSpaces (preprocessCore s.data)) = preprocessCore s.data :=
    pySplit_joinSpaces (preprocessCore s.data)
      (fun t ht => ⟨(h t ht).1, (h t ht).2.2.2.1⟩)
  show processTokens (pySplit (((joinSpaces (preprocessCore s.data)).map
      pyLower).map subNonAlpha)) = preprocessCore s.data
  rw [h1, h2, h3]
  unfold processTokens
  rw [List.filter_eq_self.mpr
    (fun t ht => by rw [(h t ht).2.2.2.2.1]; rfl)]
  exact map_id_of_mem Porter.stem (preprocessCore s.data)
    (fun t ht => (h t ht).2.2.2.2.2)

/-- C4 witness: on "Fix login bug" the first output is "fix login bug",
whose tokens are normalized non-stopword stemmer fixed points, and the
second application indeed returns it unchanged. -/
theorem preprocess_idempotent_on_normal_witness :
    preprocess_text (preprocess_text "Fix login bug")
      = preprocess_text "Fix login bug" :=
  preprocess_idempotent_on_normal "Fix login bug" (by decide)

/-- C3 counterexample: with the uploaded row "Fix Bug!" the embedding input
is the raw description, not its preprocessed form "fix bug" — the
`processed` column is computed (line 153) but line 157 embeds
`df['description']`. -/
theorem embedding_input_is_raw :
    embeddingInput [⟨some "Fix Bug!", some "High", some "alice"⟩]
      = ["Fix Bug!"] ∧
    processedColumn [⟨some "Fix Bug!", some "High", some "alice"⟩]
      = ["fix bug"] ∧
    embeddingInput [⟨some "Fix Bug!", some "High", some "alice"⟩]
      ≠ processedColumn [⟨some "Fix Bug!", some "High", some "alice"⟩] := by
  refine ⟨?_, ?_, ?_⟩ <;> decide

/-- C3 (amended).  The classifier features are computed from the raw
description column: the embedding input coincides with the preprocessed
column exactly when every kept description is already a fixed point of
`preprocess_text`. -/
theorem embedding_input_eq_processed_iff (rows : List UploadRow) :
    embeddingInput rows = processedColumn rows ↔
      ∀ r ∈ dropnaRows rows, preprocess_text r.1 = r.1 := by
  unfold embeddingInput processedColumn
  rw [List.map_eq_map_iff]
  constructor
  · intro hAll r hr
    exact (hAll r hr).symm
  · intro hAll r hr
    exact (hAll r hr).symm

/-- C3 amended-claim witness: a fully normalized description makes the two
columns coincide. -/
theorem embedding_input_eq_processed_iff_witness :
    embeddingInput [⟨some "fix bug", some "High", some "alice"⟩]
      = processedColumn [⟨some "fix bug", some "High", some "alice"⟩] :=
  (embedding_input_eq_processed_iff
    [⟨some "fix bug", some "High", some "alice"⟩]).mpr (by decide)

/-- C8 witness: three known classes, class 2 absent from both vectors. -/
theorem insights_report_full_axes_witness :
    (insightsConfusion 3 [0, 1] [1, 1]).length = 3 ∧
    precisionFor [0, 1] [1, 1] 2 = 0 ∧
    recallFor [0, 1] [1, 1] 2 = 0 := by
  have h := insights_report_full_axes 3 [0, 1] [1, 1]
  exact ⟨h.1, h.2.2.1 2 (by decide), h.2.2.2 2 (by decide)⟩

end TaskApp
